import Mathlib

/-!
Verification of the file-handler program (src/File_Program.py) against its
natural-language specification.

The program is a small interactive utility: read a text file, apply one of
seven whole-content text transformations, write the result, print a preview.
We shallowly embed the pure transformation core (`modify_content`), the
preview computation from `main`, and the effectful `write_file` guarded by
an overwrite confirmation.  Strings are Lean `String`s (lists of unicode
scalar characters); the per-character case mappings model Python's
`str.upper`/`str.lower`/`str.title` on the basic-latin (ASCII) range, where
Lean's core `Char.toUpper`/`Char.toLower` coincide with Python's behavior.
The filesystem is modelled as an association list from paths to contents,
and the interactive overwrite answer and the possible I/O failure of the
write are passed in as explicit parameters.
-/

set_option maxRecDepth 4000

namespace FileProgram

/-- ASCII lowercase letter test (`a`..`z`, code points 97..122). -/
def isAsciiLower (c : Char) : Bool :=
  decide (97 ≤ c.toNat ∧ c.toNat ≤ 122)

/-- ASCII uppercase letter test (`A`..`Z`, code points 65..90). -/
def isAsciiUpper (c : Char) : Bool :=
  decide (65 ≤ c.toNat ∧ c.toNat ≤ 90)

/-- ASCII letter test: the characters Python's `str.title` treats as cased
on the ASCII range. -/
def isAsciiAlpha (c : Char) : Bool :=
  isAsciiLower c || isAsciiUpper c

/-- Whitespace characters recognized by Python's `str.split()` on the ASCII
range: space, tab, newline, carriage return, vertical tab (11), form
feed (12). -/
def isPySpace (c : Char) : Bool :=
  decide (c.toNat = 32 ∨ c.toNat = 9 ∨ c.toNat = 10 ∨ c.toNat = 13 ∨
    c.toNat = 11 ∨ c.toNat = 12)

/-- Python `content.upper()` on ASCII text: every character mapped to its
uppercase form (`Char.toUpper` is exactly this mapping on basic latin). -/
def pyUpper (s : String) : String :=
  ⟨s.data.map Char.toUpper⟩

/-- Python `content.lower()` on ASCII text: every character mapped to its
lowercase form. -/
def pyLower (s : String) : String :=
  ⟨s.data.map Char.toLower⟩

/-- Core of Python `content.title()`: a character is uppercased when it is a
letter not preceded by a letter, lowercased when it is a letter preceded by
a letter, and left alone otherwise.  The boolean argument records whether
the previous character was a letter (false at the start). -/
def pyTitleAux : Bool → List Char → List Char
  | _, [] => []
  | prevAlpha, c :: cs =>
    (if isAsciiAlpha c then
      (if prevAlpha then Char.toLower c else Char.toUpper c)
     else c) :: pyTitleAux (isAsciiAlpha c) cs

/-- Python `content.title()` on ASCII text. -/
def pyTitle (s : String) : String :=
  ⟨pyTitleAux false s.data⟩

/-- Python `content[::-1]`: the character sequence reversed. -/
def pyReverse (s : String) : String :=
  ⟨s.data.reverse⟩

/-- Python `content.split()` on a character list: split on runs of
whitespace, discarding empty pieces (hence trimming both ends).  The
accumulator holds the current word reversed. -/
def pySplitAux : List Char → List Char → List (List Char)
  | acc, [] => if acc = [] then [] else [acc.reverse]
  | acc, c :: cs =>
    if isPySpace c then
      (if acc = [] then pySplitAux [] cs else acc.reverse :: pySplitAux [] cs)
    else pySplitAux (c :: acc) cs

/-- Python `content.split()` (no separator argument). -/
def pySplit (cs : List Char) : List (List Char) :=
  pySplitAux [] cs

/-- Python `' '.join(words)`: the words joined with single spaces. -/
def joinSp : List (List Char) → List Char
  | [] => []
  | [w] => w
  | w :: ws => w ++ ' ' :: joinSp ws

/-- Python `' '.join(content.split())`. -/
def pyCollapse (s : String) : String :=
  ⟨joinSp (pySplit s.data)⟩

/-- Embedding of `modify_content` (src/File_Program.py lines 39-63): empty
content is returned unchanged (`if not content`), otherwise the dictionary
lookup with default `content` selects the transformation. -/
def modify_content (content : String) (modification_type : String) : String :=
  if content = "" then content
  else if modification_type = "upper" then pyUpper content
  else if modification_type = "lower" then pyLower content
  else if modification_type = "title" then pyTitle content
  else if modification_type = "reverse" then pyReverse content
  else if modification_type = "double" then content ++ content
  else if modification_type = "remove_spaces" then pyCollapse content
  else if modification_type = "default" then content
  else content

/-- Python `len` on text: the number of characters. -/
def pyLen (s : String) : Nat :=
  s.data.length

/-- Embedding of the preview computation in `main` (line 182):
`modified_content[:200] + ("..." if len(modified_content) > 200 else "")`. -/
def preview (modified_content : String) : String :=
  ⟨modified_content.data.take 200 ++
    (if 200 < modified_content.data.length then ['.', '.', '.'] else [])⟩

/-- Predicate used to state the collapse-whitespace claim: no two adjacent
characters of the list are both whitespace. -/
def noDoubleSpace : List Char → Bool
  | c1 :: c2 :: cs => (!(isPySpace c1 && isPySpace c2)) && noDoubleSpace (c2 :: cs)
  | _ => true

/-- Whether an optional previous character is a letter; `pyTitleAux`'s flag
as a function of the previous character (`none` at the start of the text). -/
def prevAlphaFlag : Option Char → Bool
  | none => false
  | some d => isAsciiAlpha d

/-- Positional rule of Python title-casing: a character is changed exactly
as a function of itself and the immediately preceding character. -/
def titleRule : Char × Option Char → Char
  | (c, p) =>
    if isAsciiAlpha c then
      (if prevAlphaFlag p then Char.toLower c else Char.toUpper c)
    else c

/-- Letter-run description of title-casing: each character is paired with
its predecessor (`none` for the first) and mapped through `titleRule`, so a
letter is uppercased exactly when it starts a maximal run of letters and
lowercased otherwise, and non-letters are unchanged. -/
def specTitleAlpha (cs : List Char) : List Char :=
  (cs.zip (none :: cs.map some)).map titleRule

/-- Title-casing as worded by the specification claim: words are delimited
by whitespace only, the first character of each word is uppercased and the
remainder of the word is lowercased, so apostrophes, hyphens and digits do
not start a new word.  The boolean records being at a word start. -/
def specTitleWsAux : Bool → List Char → List Char
  | _, [] => []
  | atStart, c :: cs =>
    if isPySpace c then c :: specTitleWsAux true cs
    else (if atStart then Char.toUpper c else Char.toLower c) :: specTitleWsAux false cs

/-- Whitespace-delimited title-casing of a string (the claim's reading). -/
def specTitleWs (s : String) : String :=
  ⟨specTitleWsAux true s.data⟩

/-- Write-side failure classification of `write_file` (lines 89-94):
`PermissionError` or any other `IOError` with its message. -/
inductive WriteErr
  | permissionDenied : WriteErr
  | otherFailure : String → WriteErr

/-- Outcome of one `write_file` call: the returned boolean, the filesystem
after the call, and the messages printed. -/
structure WriteResult where
  ret : Bool
  fs : List (String × String)
  msgs : List String

/-- The filesystem is an association list from paths to file contents;
`os.path.exists` is membership. -/
def fileExists (fs : List (String × String)) (filename : String) : Bool :=
  (fs.lookup filename).isSome

/-- Writing a file: replace the content stored at an existing path, or add
the path (`open(filename, 'w')` truncates or creates). -/
def setFile : List (String × String) → String → String → List (String × String)
  | [], filename, content => [(filename, content)]
  | (g, d) :: fs, filename, content =>
    if g = filename then (filename, content) :: fs
    else (g, d) :: setFile fs filename content

/-- Embedding of `write_file` (src/File_Program.py lines 65-94).  The
interactive overwrite answer and the possible I/O failure of the write are
explicit parameters: if the path exists and the lowercased answer is not
`y`, the operation is cancelled (returns `False`, prints
`Operation cancelled.`, touches nothing); otherwise the write either
succeeds (returns `True`) or fails with a printed error (returns `False`,
filesystem unchanged). -/
def write_file (fs : List (String × String)) (overwrite : String)
    (err : Option WriteErr) (filename content : String) : WriteResult :=
  if fileExists fs filename = true ∧ pyLower overwrite ≠ "y" then
    ⟨false, fs, ["Operation cancelled."]⟩
  else
    match err with
    | none => ⟨true, setFile fs filename content, ["Successfully wrote to " ++ filename]⟩
    | some WriteErr.permissionDenied =>
      ⟨false, fs, ["Error: Permission denied to write to " ++ filename]⟩
    | some (WriteErr.otherFailure m) =>
      ⟨false, fs, ["Error: Unable to write to file " ++ filename ++ ": " ++ m]⟩

/-! ### Character-level case-mapping lemmas -/

theorem char_toNat_ofNat (n : Nat) (h : n < 55296) : (Char.ofNat n).toNat = n := by
  rw [Char.ofNat, dif_pos (Or.inl h)]
  rfl

theorem toUpper_eq (c : Char) :
    Char.toUpper c =
      if 97 ≤ c.toNat ∧ c.toNat ≤ 122 then Char.ofNat (c.toNat - 32) else c := by
  rw [Char.toUpper]

theorem toLower_eq (c : Char) :
    Char.toLower c =
      if 65 ≤ c.toNat ∧ c.toNat ≤ 90 then Char.ofNat (c.toNat + 32) else c := by
  rw [Char.toLower]

theorem isAsciiLower_toUpper (c : Char) : isAsciiLower (Char.toUpper c) = false := by
  rw [toUpper_eq]
  by_cases h : 97 ≤ c.toNat ∧ c.toNat ≤ 122
  · rw [if_pos h, isAsciiLower, char_toNat_ofNat _ (by omega)]
    simp only [decide_eq_false_iff_not]
    omega
  · rw [if_neg h, isAsciiLower]
    simp only [decide_eq_false_iff_not]
    exact h

theorem isAsciiUpper_toLower (c : Char) : isAsciiUpper (Char.toLower c) = false := by
  rw [toLower_eq]
  by_cases h : 65 ≤ c.toNat ∧ c.toNat ≤ 90
  · rw [if_pos h, isAsciiUpper, char_toNat_ofNat _ (by omega)]
    simp only [decide_eq_false_iff_not]
    omega
  · rw [if_neg h, isAsciiUpper]
    simp only [decide_eq_false_iff_not]
    exact h

/-! ### Simple transform claims -/

/-- C4: for every input string `content`, `transform(content, to-upper)`
contains no lowercase letters and `transform(content, to-lower)` contains
no uppercase letters. -/
theorem spec_upper_lower_exhaustive (s : String) :
    ((modify_content s "upper").data.all (fun c => !(isAsciiLower c))) = true ∧
    ((modify_content s "lower").data.all (fun c => !(isAsciiUpper c))) = true := by
  constructor
  · by_cases h : s = ""
    · subst h; rfl
    · simp [modify_content, h, pyUpper, List.all_map, Function.comp,
        isAsciiLower_toUpper]
  · by_cases h : s = ""
    · subst h; rfl
    · simp [modify_content, h, pyLower, List.all_map, Function.comp,
        isAsciiUpper_toLower]

/-- C6: for every input string `content`, `transform(content, duplicate)`
equals `content ++ content` and its length is twice the length of
`content`. -/
theorem spec_duplicate (s : String) :
    modify_content s "double" = s ++ s ∧
    pyLen (modify_content s "double") = 2 * pyLen s := by
  have hd : modify_content s "double" = s ++ s := by
    by_cases h : s = ""
    · subst h; rfl
    · simp [modify_content, h]
  refine ⟨hd, ?_⟩
  rw [hd, pyLen, pyLen, String.data_append, List.length_append]
  omega

/-- C7: applying the reverse transform twice returns the original content
(reverse is an involution). -/
theorem spec_reverse_involution (s : String) :
    modify_content (modify_content s "reverse") "reverse" = s := by
  by_cases h : s = ""
  · subst h; rfl
  · have h1 : modify_content s "reverse" = ⟨s.data.reverse⟩ := by
      simp [modify_content, h, pyReverse]
    rw [h1]
    have h2 : (⟨s.data.reverse⟩ : String) ≠ "" := by
      intro he
      apply h
      cases s with
      | mk d =>
        have hrev : d.reverse = [] := congrArg String.data he
        have hnil : d = [] := by simpa using congrArg List.reverse hrev
        rw [hnil]
    simp [modify_content, h2, pyReverse, List.reverse_reverse]

/-! ### Split/join lemmas for the collapse-whitespace transform -/

theorem joinSp_nil : joinSp [] = [] := rfl

theorem joinSp_single (w : List Char) : joinSp [w] = w := rfl

theorem joinSp_cons_cons (w w' : List Char) (ws : List (List Char)) :
    joinSp (w :: w' :: ws) = w ++ ' ' :: joinSp (w' :: ws) := rfl

theorem pySplitAux_sound : ∀ (cs acc : List Char),
    (∀ c ∈ acc, isPySpace c = false) →
    ∀ w ∈ pySplitAux acc cs, w ≠ [] ∧ ∀ c ∈ w, isPySpace c = false := by
  intro cs
  induction cs with
  | nil =>
    intro acc hacc w hw
    rw [pySplitAux] at hw
    by_cases ha : acc = []
    · rw [if_pos ha] at hw
      exact absurd hw (List.not_mem_nil w)
    · rw [if_neg ha] at hw
      obtain rfl : w = acc.reverse := List.mem_singleton.mp hw
      refine ⟨by simpa using ha, fun c hc => hacc c (List.mem_reverse.mp hc)⟩
  | cons c cs ih =>
    intro acc hacc w hw
    rw [pySplitAux] at hw
    by_cases hs : isPySpace c = true
    · rw [if_pos hs] at hw
      by_cases ha : acc = []
      · rw [if_pos ha] at hw
        exact ih [] (fun d hd => absurd hd (List.not_mem_nil d)) w hw
      · rw [if_neg ha] at hw
        rcases List.mem_cons.mp hw with h1 | h1
        · subst h1
          exact ⟨by simpa using ha, fun d hd => hacc d (List.mem_reverse.mp hd)⟩
        · exact ih [] (fun d hd => absurd hd (List.not_mem_nil d)) w h1
    · rw [if_neg hs] at hw
      refine ih (c :: acc) ?_ w hw
      intro d hd
      rcases List.mem_cons.mp hd with h1 | h1
      · subst h1
        simpa using hs
      · exact hacc d h1

theorem joinSp_ne_nil (ws : List (List Char)) (hne : ws ≠ [])
    (h : ∀ w ∈ ws, w ≠ []) : joinSp ws ≠ [] := by
  cases ws with
  | nil => exact absurd rfl hne
  | cons w ws =>
    cases ws with
    | nil =>
      rw [joinSp_single]
      exact h w (List.mem_cons_self w [])
    | cons w' ws' =>
      rw [joinSp_cons_cons]
      have hw := h w (List.mem_cons_self w _)
      cases w with
      | nil => exact absurd rfl hw
      | cons x xs => simp

theorem joinSp_head (ws : List (List Char))
    (h : ∀ w ∈ ws, w ≠ [] ∧ ∀ c ∈ w, isPySpace c = false) :
    ∀ c, (joinSp ws).head? = some c → isPySpace c = false := by
  induction ws with
  | nil =>
    intro c hc
    exact Option.noConfusion hc
  | cons w ws ih =>
    intro c hc
    obtain ⟨hne, hall⟩ := h w (List.mem_cons_self w ws)
    cases ws with
    | nil =>
      rw [joinSp_single] at hc
      cases w with
      | nil => exact absurd rfl hne
      | cons x xs =>
        rw [List.head?_cons] at hc
        obtain rfl := Option.some.inj hc
        exact hall x (List.mem_cons_self x xs)
    | cons w' ws' =>
      rw [joinSp_cons_cons] at hc
      cases w with
      | nil => exact absurd rfl hne
      | cons x xs =>
        rw [List.cons_append, List.head?_cons] at hc
        obtain rfl := Option.some.inj hc
        exact hall x (List.mem_cons_self x xs)

theorem joinSp_getLast (ws : List (List Char))
    (h : ∀ w ∈ ws, w ≠ [] ∧ ∀ c ∈ w, isPySpace c = false) :
    ∀ c, (joinSp ws).getLast? = some c → isPySpace c = false := by
  induction ws with
  | nil =>
    intro c hc
    exact Option.noConfusion hc
  | cons w ws ih =>
    intro c hc
    cases ws with
    | nil =>
      rw [joinSp_single] at hc
      exact (h w (List.mem_cons_self w [])).2 c (List.mem_of_getLast?_eq_some hc)
    | cons w' ws' =>
      rw [joinSp_cons_cons] at hc
      have hr : joinSp (w' :: ws') ≠ [] :=
        joinSp_ne_nil (w' :: ws') (List.cons_ne_nil w' ws')
          (fun u hu => (h u (List.mem_cons_of_mem w hu)).1)
      obtain ⟨x, hx⟩ := Option.isSome_iff_exists.mp (List.getLast?_isSome.mpr hr)
      rw [List.getLast?_append,
        show (' ' :: joinSp (w' :: ws')) = [' '] ++ joinSp (w' :: ws') from rfl,
        List.getLast?_append, hx, Option.or_some, Option.or_some] at hc
      rw [Option.some.inj hc] at hx
      exact ih (fun u hu => h u (List.mem_cons_of_mem w hu)) c hx

theorem noDoubleSpace_cons (c : Char) (rest : List Char)
    (h1 : ∀ c2, rest.head? = some c2 → (isPySpace c && isPySpace c2) = false)
    (h2 : noDoubleSpace rest = true) : noDoubleSpace (c :: rest) = true := by
  cases rest with
  | nil => rfl
  | cons c2 cs =>
    show ((!(isPySpace c && isPySpace c2)) && noDoubleSpace (c2 :: cs)) = true
    rw [h1 c2 List.head?_cons, h2]
    rfl

theorem noDoubleSpace_append (w rest : List Char)
    (hw : ∀ c ∈ w, isPySpace c = false) (h : noDoubleSpace rest = true) :
    noDoubleSpace (w ++ rest) = true := by
  induction w with
  | nil => simpa using h
  | cons x xs ih =>
    rw [List.cons_append]
    apply noDoubleSpace_cons
    · intro c2 _
      rw [hw x (List.mem_cons_self x xs)]
      rfl
    · exact ih (fun c hc => hw c (List.mem_cons_of_mem x hc))

theorem joinSp_noDoubleSpace (ws : List (List Char))
    (h : ∀ w ∈ ws, w ≠ [] ∧ ∀ c ∈ w, isPySpace c = false) :
    noDoubleSpace (joinSp ws) = true := by
  induction ws with
  | nil => rfl
  | cons w ws ih =>
    cases ws with
    | nil =>
      rw [joinSp_single]
      have := noDoubleSpace_append w []
        ((h w (List.mem_cons_self w [])).2) rfl
      simpa using this
    | cons w' ws' =>
      rw [joinSp_cons_cons]
      apply noDoubleSpace_append w _ ((h w (List.mem_cons_self w _)).2)
      apply noDoubleSpace_cons
      · intro c2 hc2
        rw [joinSp_head (w' :: ws')
          (fun u hu => h u (List.mem_cons_of_mem w hu)) c2 hc2]
        simp
      · exact ih (fun u hu => h u (List.mem_cons_of_mem w hu))

/-- C5: the collapse-whitespace transform rejoins the whitespace-split
pieces with single spaces: on `" a   b  c "` it yields `"a b c"`, and for
every input the result has no leading whitespace, no trailing whitespace,
and no two adjacent whitespace characters. -/
theorem spec_collapse_whitespace :
    modify_content " a   b  c " "remove_spaces" = "a b c" ∧
    ∀ s : String,
      (∀ c, ((modify_content s "remove_spaces").data).head? = some c →
        isPySpace c = false) ∧
      (∀ c, ((modify_content s "remove_spaces").data).getLast? = some c →
        isPySpace c = false) ∧
      noDoubleSpace ((modify_content s "remove_spaces").data) = true := by
  constructor
  · decide
  · intro s
    by_cases h : s = ""
    · subst h
      exact ⟨fun c hc => Option.noConfusion hc,
        fun c hc => Option.noConfusion hc, rfl⟩
    · have hmc : modify_content s "remove_spaces" = pyCollapse s := by
        simp [modify_content, h]
      rw [hmc]
      have hdata : (pyCollapse s).data = joinSp (pySplitAux [] s.data) := rfl
      rw [hdata]
      have hsound := pySplitAux_sound s.data []
        (fun c hc => absurd hc (List.not_mem_nil c))
      exact ⟨joinSp_head _ hsound, joinSp_getLast _ hsound,
        joinSp_noDoubleSpace _ hsound⟩

/-- Witness for C5: the theorem applied at the concrete input
`" a   b  c "`, whose collapsed form starts with `a` and ends with `c`. -/
theorem spec_collapse_whitespace_witness :
    isPySpace 'a' = false ∧ isPySpace 'c' = false :=
  ⟨(spec_collapse_whitespace.2 " a   b  c ").1 'a' (by decide),
   (spec_collapse_whitespace.2 " a   b  c ").2.1 'c' (by decide)⟩

/-! ### Title-case lemmas -/

theorem pyTitleAux_eq_zip : ∀ (cs : List Char) (p : Option Char),
    pyTitleAux (prevAlphaFlag p) cs = (cs.zip (p :: cs.map some)).map titleRule := by
  intro cs
  induction cs with
  | nil => intro p; rfl
  | cons c cs ih =>
    intro p
    show (if isAsciiAlpha c then
          (if prevAlphaFlag p then Char.toLower c else Char.toUpper c)
        else c) :: pyTitleAux (isAsciiAlpha c) cs =
      titleRule (c, p) :: (cs.zip (some c :: cs.map some)).map titleRule
    congr 1
    exact ih (some c)

/-- C2 (amended): the title-case transform uppercases exactly the first
letter of each maximal run of letters and lowercases the remaining letters
of the run; non-letters (whitespace, apostrophes, hyphens, digits) are
unchanged and terminate the run, so a letter after a non-letter is
uppercased. -/
theorem spec_title_letter_runs (s : String) :
    modify_content s "title" = ⟨specTitleAlpha s.data⟩ := by
  by_cases h : s = ""
  · subst h; rfl
  · have hmc : modify_content s "title" = pyTitle s := by
      simp [modify_content, h]
    rw [hmc, pyTitle, specTitleAlpha]
    exact congrArg String.mk (pyTitleAux_eq_zip s.data none)

/-- C2 counterexample: on `"x-y"` the code titlecases to `"X-Y"` (the
hyphen starts a new word), while the claimed whitespace-delimited rule
would give `"X-y"`. -/
theorem claim_title_whitespace_counterexample :
    modify_content "x-y" "title" = "X-Y" ∧ specTitleWs "x-y" = "X-y" ∧
    modify_content "x-y" "title" ≠ specTitleWs "x-y" := by
  refine ⟨by decide, by decide, by decide⟩

/-- C9: for every content and every modification-type string outside the
seven recognized kinds, `modify_content` returns the content unchanged. -/
theorem spec_unknown_kind_identity (s k : String)
    (h1 : k ≠ "upper") (h2 : k ≠ "lower") (h3 : k ≠ "title") (h4 : k ≠ "reverse")
    (h5 : k ≠ "double") (h6 : k ≠ "remove_spaces") (h7 : k ≠ "default") :
    modify_content s k = s := by
  by_cases h : s = ""
  · simp [modify_content, h]
  · simp [modify_content, h, h1, h2, h3, h4, h5, h6, h7]

/-- Witness for C9 at the concrete unknown kind `banana`. -/
theorem spec_unknown_kind_identity_witness : modify_content "Hi" "banana" = "Hi" :=
  spec_unknown_kind_identity "Hi" "banana" (by decide) (by decide) (by decide)
    (by decide) (by decide) (by decide) (by decide)

/-! ### Preview -/

/-- C8: the preview shows the whole result when it has at most 200
characters, and exactly the first 200 characters followed by the
three-character ellipsis marker when it is longer. -/
theorem spec_preview_truncation (s : String) :
    (pyLen s ≤ 200 → preview s = s) ∧
    (200 < pyLen s →
      (preview s).data = s.data.take 200 ++ ['.', '.', '.'] ∧
      (s.data.take 200).length = 200) := by
  constructor
  · intro hle
    have hle' : s.data.length ≤ 200 := hle
    rw [preview, if_neg (by omega : ¬(200 < s.data.length)),
      List.append_nil, List.take_of_length_le hle']
  · intro hgt
    have hgt' : 200 < s.data.length := hgt
    constructor
    · rw [preview, if_pos hgt']
    · rw [List.length_take]
      omega

/-- Witness for C8: a 250-character result previews as exactly 200
characters plus the ellipsis marker, and a 50-character result previews
unchanged with no marker. -/
theorem spec_preview_truncation_witness :
    (preview ⟨List.replicate 250 'a'⟩).data =
      List.replicate 200 'a' ++ ['.', '.', '.'] ∧
    preview ⟨List.replicate 50 'a'⟩ = ⟨List.replicate 50 'a'⟩ := by
  constructor
  · have h := ((spec_preview_truncation ⟨List.replicate 250 'a'⟩).2 (by decide)).1
    rw [h, List.take_replicate]
    norm_num
  · exact (spec_preview_truncation ⟨List.replicate 50 'a'⟩).1 (by decide)

/-! ### Writer -/

theorem cancel_msg_ne (filename : String) :
    ("Error: Permission denied to write to " ++ filename) ≠
      "Operation cancelled." := by
  intro h
  have h2 := congrArg String.data h
  rw [String.data_append] at h2
  have h3 := congrArg List.head? h2
  rw [List.head?_append] at h3
  rw [show ("Error: Permission denied to write to ").data.head? = some 'E'
    from by decide, Option.or_some] at h3
  rw [show ("Operation cancelled.").data.head? = some 'O' from by decide] at h3
  exact absurd (Option.some.inj h3) (by decide)

/-- C1 counterexample: the value `write_file` returns on a declined
overwrite is the very same boolean `False` it returns on a
permission-denied or other I/O failure, so the caller cannot tell a
decline apart from a failure by the returned outcome. -/
theorem claim_declined_distinct_counterexample :
    (write_file [("out.txt", "old")] "n" none "out.txt" "new").ret =
      (write_file [("out.txt", "old")] "y" (some WriteErr.permissionDenied)
        "out.txt" "new").ret ∧
    (write_file [("out.txt", "old")] "n" none "out.txt" "new").ret =
      (write_file [("out.txt", "old")] "y"
        (some (WriteErr.otherFailure "disk full")) "out.txt" "new").ret := by
  refine ⟨by decide, by decide⟩

/-- C1 (amended): on an existing path, a non-affirmative overwrite answer
performs no write, returns `False` and prints `Operation cancelled.`; a
failure also returns `False`, so decline and failure are distinguished
only by the printed message, not by the returned value. -/
theorem spec_write_declined (fs : List (String × String)) (overwrite : String)
    (err : Option WriteErr) (filename content : String)
    (hex : fileExists fs filename = true) (hn : pyLower overwrite ≠ "y") :
    write_file fs overwrite err filename content =
      ⟨false, fs, ["Operation cancelled."]⟩ ∧
    (write_file fs "y" (some WriteErr.permissionDenied) filename content).ret =
      false ∧
    (write_file fs "y" (some WriteErr.permissionDenied) filename content).msgs ≠
      ["Operation cancelled."] := by
  have hy : pyLower "y" = "y" := by decide
  refine ⟨?_, ?_, ?_⟩
  · rw [write_file.eq_def, if_pos ⟨hex, hn⟩]
  · rw [write_file, if_neg (fun hc => hc.2 hy)]
  · rw [write_file, if_neg (fun hc => hc.2 hy)]
    intro hEq
    have h1 : ("Error: Permission denied to write to " ++ filename) =
        "Operation cancelled." := by
      injection hEq
    exact cancel_msg_ne filename h1

/-- Witness for C1 (amended) at a concrete one-file filesystem and the
answer `n`. -/
theorem spec_write_declined_witness :
    write_file [("out.txt", "old")] "n" none "out.txt" "new" =
      ⟨false, [("out.txt", "old")], ["Operation cancelled."]⟩ :=
  (spec_write_declined [("out.txt", "old")] "n" none "out.txt" "new"
    (by decide) (by decide)).1

/-- C3: when the user declines the overwrite confirmation on an existing
path, the filesystem is unchanged; in particular the existing file keeps
its content. -/
theorem spec_write_decline_unchanged (fs : List (String × String))
    (overwrite : String) (err : Option WriteErr) (filename content : String)
    (hex : fileExists fs filename = true) (hn : pyLower overwrite ≠ "y") :
    (write_file fs overwrite err filename content).fs = fs ∧
    (write_file fs overwrite err filename content).fs.lookup filename =
      fs.lookup filename := by
  have h : write_file fs overwrite err filename content =
      ⟨false, fs, ["Operation cancelled."]⟩ := by
    rw [write_file.eq_def, if_pos ⟨hex, hn⟩]
  rw [h]
  exact ⟨rfl, rfl⟩

/-- Witness for C3: declining with `n` leaves the stored content `old`
in place. -/
theorem spec_write_decline_unchanged_witness :
    (write_file [("out.txt", "old")] "n" none "out.txt" "new").fs.lookup
      "out.txt" = some "old" := by
  have h := (spec_write_decline_unchanged [("out.txt", "old")] "n" none
    "out.txt" "new" (by decide) (by decide)).2
  rw [h]
  decide

/-- C10: on an existing path the write proceeds exactly when the answer
lowercases to the single letter `y`; any other answer declines and leaves
the filesystem unchanged. -/
theorem spec_overwrite_affirmative (fs : List (String × String))
    (overwrite : String) (filename content : String)
    (hex : fileExists fs filename = true) :
    ((write_file fs overwrite none filename content).ret = true ↔
      pyLower overwrite = "y") ∧
    (pyLower overwrite ≠ "y" →
      (write_file fs overwrite none filename content).fs = fs) := by
  by_cases hy : pyLower overwrite = "y"
  · constructor
    · rw [write_file, if_neg (fun hc => hc.2 hy)]
      simp [hy]
    · intro hne
      exact absurd hy hne
  · constructor
    · rw [write_file, if_pos ⟨hex, hy⟩]
      simp [hy]
    · intro _
      rw [write_file, if_pos ⟨hex, hy⟩]

/-- Witness for C10: `Y` (lowercasing to `y`) proceeds; `yes`, `Y` with a
trailing space, and the empty answer all decline. -/
theorem spec_overwrite_affirmative_witness :
    (write_file [("o.txt", "old")] "Y" none "o.txt" "new").ret = true ∧
    (write_file [("o.txt", "old")] "yes" none "o.txt" "new").ret = false ∧
    (write_file [("o.txt", "old")] "Y " none "o.txt" "new").ret = false ∧
    (write_file [("o.txt", "old")] "" none "o.txt" "new").ret = false := by
  refine ⟨?_, ?_, ?_, ?_⟩
  · exact ((spec_overwrite_affirmative [("o.txt", "old")] "Y" "o.txt" "new"
      (by decide)).1).mpr (by decide)
  · have h := (spec_overwrite_affirmative [("o.txt", "old")] "yes" "o.txt"
      "new" (by decide)).1
    revert h
    decide
  · have h := (spec_overwrite_affirmative [("o.txt", "old")] "Y " "o.txt"
      "new" (by decide)).1
    revert h
    decide
  · have h := (spec_overwrite_affirmative [("o.txt", "old")] "" "o.txt"
      "new" (by decide)).1
    revert h
    decide

end FileProgram
